import Mathlib

/-!
Shallow embedding of the set-operations module (`setops.py`) of an
array-processing library, together with proofs of its specified
properties.

Arrays are modelled as `List Val` where `Val` is either a finite numeric
value (an integer) or NaN.  The model keeps the floating-point comparison
semantics that the code relies on: `veq` is elementwise `==` (false on any
NaN operand), `vlt`/`vle` is the sort order used by the library's sort
kernels (NaN ordered as the maximum value), and `neqV` is the module's
uniqueness predicate `lax.ne(x, y) & ~(isnan(x) & isnan(y))`.
-/

namespace JaxSetops

/-- Scalar element of an array: a finite numeric value (modelled by an
integer) or NaN.  All NaN payloads are identified, since none of the
operations in the module can distinguish them. -/
inductive Val where
  | num : Int → Val
  | nan : Val
deriving DecidableEq

/-- Predicate `isnan` from the source. -/
def Val.isnan : Val → Bool
  | .nan => true
  | .num _ => false

/-- Elementwise floating-point equality `==` (`lax.eq`): false whenever an
operand is NaN. -/
def veq : Val → Val → Bool
  | .num a, .num b => a == b
  | _, _ => false

/-- Strict sort order used by the sort kernels: numbers by value, NaN
ordered as the maximum value. -/
def vlt : Val → Val → Bool
  | .num a, .num b => decide (a < b)
  | .num _, .nan => true
  | .nan, _ => false

/-- Non-strict version of `vlt`. -/
def vle : Val → Val → Bool
  | .num a, .num b => decide (a ≤ b)
  | .num _, .nan => true
  | .nan, .num _ => false
  | .nan, .nan => true

/-- The uniqueness comparison of `_unique_sorted_mask` for inexact dtypes:
`neq = lambda x, y: lax.ne(x, y) & ~(isnan(x) & isnan(y))`. -/
def neqV (x y : Val) : Bool := !(veq x y) && !(x.isnan && y.isnan)

/-- Equality under the NaN-equal-to-NaN rule of the specification:
ordinary `==`, except that two NaN values count as equal. -/
def eqRule (x y : Val) : Bool := veq x y || (x.isnan && y.isnan)

theorem eqRule_iff (x y : Val) : eqRule x y = true ↔ x = y := by
  cases x <;> cases y <;> simp [eqRule, veq, Val.isnan]

theorem neqV_iff (x y : Val) : neqV x y = true ↔ x ≠ y := by
  cases x <;> cases y <;> simp [neqV, veq, Val.isnan]

theorem neqV_eq_not_eqRule (x y : Val) : neqV x y = !(eqRule x y) := by
  cases x <;> cases y <;> simp [neqV, eqRule, veq, Val.isnan]

theorem vle_refl (x : Val) : vle x x = true := by
  cases x <;> simp [vle]

theorem vle_total (x y : Val) : vle x y = true ∨ vle y x = true := by
  cases x <;> cases y <;> simp [vle] <;> omega

theorem vle_trans {x y z : Val} (h₁ : vle x y = true) (h₂ : vle y z = true) :
    vle x z = true := by
  cases x <;> cases y <;> cases z <;> simp_all [vle] <;> omega

theorem vle_antisymm {x y : Val} (h₁ : vle x y = true) (h₂ : vle y x = true) :
    x = y := by
  cases x <;> cases y <;> simp_all [vle] <;> omega

theorem vlt_trans {x y z : Val} (h₁ : vlt x y = true) (h₂ : vlt y z = true) :
    vlt x z = true := by
  cases x <;> cases y <;> cases z <;> simp_all [vlt] <;> omega

theorem vlt_ne {x y : Val} (h : vlt x y = true) : x ≠ y := by
  cases x <;> cases y <;> simp_all [vlt] <;> omega

theorem vlt_of_vle_ne {x y : Val} (h₁ : vle x y = true) (h₂ : x ≠ y) :
    vlt x y = true := by
  cases x <;> cases y <;> simp_all [vle, vlt] <;> omega

theorem vle_of_vlt {x y : Val} (h : vlt x y = true) : vle x y = true := by
  cases x <;> cases y <;> simp_all [vlt, vle] <;> omega

/-- Non-strict order as a `Prop`-valued relation, for the sort lemmas. -/
def vleP : Val → Val → Prop := fun x y => vle x y = true

/-- Strict order as a `Prop`-valued relation. -/
def vltP : Val → Val → Prop := fun x y => vlt x y = true

instance : DecidableRel vleP := fun x y => inferInstanceAs (Decidable (_ = _))

instance : DecidableRel vltP := fun x y => inferInstanceAs (Decidable (_ = _))

instance : IsTotal Val vleP := ⟨vle_total⟩

instance : IsTrans Val vleP := ⟨fun _ _ _ => vle_trans⟩

instance : IsAntisymm Val vleP := ⟨fun _ _ => vle_antisymm⟩

instance : IsTrans Val vltP := ⟨fun _ _ _ => vlt_trans⟩

/-! ### Generic list primitives used by the module

These model the array collaborators the module consumes: `nonzero`
(boolean-mask-to-index extraction, with and without a fixed size), gather
by an index array, boolean masking, `cumsum`, `diff`, and the scattered
update `x.at[idx].set(vals)`. -/

/-- Reading position `i` of an array; positions are always in range where
this is used. -/
def keyAt (ar : List Val) (i : Nat) : Val := ar.getD i Val.nan

/-- Gather `ar[idx]` for an integer index array. -/
def gather (ar : List Val) (idx : List Nat) : List Val := idx.map (keyAt ar)

/-- Gather `l[idx]` for an integer array `l`. -/
def gatherN (l : List Nat) (idx : List Nat) : List Nat :=
  idx.map (fun i => l.getD i 0)

/-- Boolean mask indexing `l[m]`. -/
def bselect {α : Type} : List α → List Bool → List α
  | x :: l, b :: m => if b then x :: bselect l m else bselect l m
  | _, _ => []

/-- Indices (offset by `k`) of the true entries of a boolean mask. -/
def trueIdxFrom (k : Nat) : List Bool → List Nat
  | [] => []
  | b :: m => if b then k :: trueIdxFrom (k + 1) m else trueIdxFrom (k + 1) m

/-- `nonzero(m)[0]`: indices of true entries of a boolean mask. -/
def trueIdx (m : List Bool) : List Nat := trueIdxFrom 0 m

/-- Number of true entries of a boolean mask (`mask.sum()`). -/
def countTrue : List Bool → Nat
  | [] => 0
  | b :: m => b.toNat + countTrue m

/-- `nonzero(m, size=s)[0]`: the first `s` indices of true entries, padded
at the end with zeros. -/
def nonzeroSize (m : List Bool) (s : Nat) : List Nat :=
  (trueIdx m ++ List.replicate s 0).take s

/-- Running sums of a boolean mask starting from `a` (`cumsum`). -/
def cumsumFrom (a : Nat) : List Bool → List Nat
  | [] => []
  | b :: m => (a + b.toNat) :: cumsumFrom (a + b.toNat) m

/-- Differences of consecutive entries (`diff`). -/
def diffs : List Nat → List Nat
  | a :: b :: rest => (b - a) :: diffs (b :: rest)
  | _ => []

/-- Scattered update `base.at[idx].set(vals)`. -/
def scatterSet : List Nat → List Nat → List Nat → List Nat
  | base, p :: ps, v :: vs => scatterSet (base.set p v) ps vs
  | base, _, _ => base

/-! ### The ordering primitive and the uniqueness mask (1-D case)

`_unique_sorted_mask(ar, axis)` for a one-dimensional input, which is the
code path taken by every flattened call in the module.  The sort key of a
position is its value; `lexsort` is a stable sort, modelled by sorting the
positions by value with ties broken by position. -/

/-- Comparison on positions inducing the stable argsort of `ar`. -/
def permLe (ar : List Val) (i j : Nat) : Prop :=
  vltP (keyAt ar i) (keyAt ar j) ∨ (keyAt ar i = keyAt ar j ∧ i ≤ j)

instance (ar : List Val) : DecidableRel (permLe ar) := fun _ _ =>
  inferInstanceAs (Decidable (_ ∨ _))

/-- The permutation produced by `lexsort` on a single key column: the
stable argsort of the values. -/
def sortPerm (ar : List Val) : List Nat :=
  (List.range ar.length).insertionSort (permLe ar)

/-- Second entry of the mask recursion: `neq(aux[i], aux[i-1])` for each
position `i ≥ 1`, where `p` is the value before the head of the list. -/
def pairNeq : Val → List Val → List Bool
  | _, [] => []
  | p, x :: rest => neqV x p :: pairNeq x rest

/-- The is-first-occurrence mask of a sorted array:
`ones(size).at[1:].set(neq(aux[1:], aux[:-1]))`, and `zeros(0)` for an
empty array. -/
def maskOf : List Val → List Bool
  | [] => []
  | x :: rest => true :: pairNeq x rest

/-- `_unique_sorted_mask` for a one-dimensional array: the sorted array,
the is-first-occurrence mask, and the sort permutation. -/
def uniqueSortedMask (ar : List Val) : List Val × List Bool × List Nat :=
  let perm := sortPerm ar
  let aux := gather ar perm
  (aux, maskOf aux, perm)

/-! ### `_unique` (1-D case) -/

/-- Replacement of the tail entries of the count boundary array:
`idx.at[1:].set(where(idx[1:], idx[1:], mask.size))`. -/
def fixTail (idx : List Nat) (n : Nat) : List Nat :=
  match idx with
  | [] => []
  | a :: rest => a :: rest.map (fun b => if b ≠ 0 then b else n)

/-- The body of `_unique` for a one-dimensional array, producing all four
outputs (unique values, first-occurrence indices, inverse index, counts)
from one mask-and-permutation pair.  The error check is modelled
separately by `uniqueRaises`. -/
def uniqueParts (ar : List Val) (size : Option Nat) (fill : Option Val) :
    List Val × List Nat × List Nat × List Nat :=
  let amp := uniqueSortedMask ar
  let aux := amp.1
  let mask := amp.2.1
  let perm := amp.2.2
  let result0 :=
    if aux.length ≠ 0 then
      match size with
      | none => bselect aux mask
      | some s => gather aux (nonzeroSize mask s)
    else aux
  let result :=
    match size, fill with
    | some s, some fv =>
        if result0.length ≠ 0 then
          (List.range s).zipWith
            (fun i r => if i < countTrue mask then r else fv) result0
        else List.replicate s fv
    | _, _ => result0
  let index :=
    if aux.length ≠ 0 then
      match size with
      | none => bselect perm mask
      | some s => gatherN perm (nonzeroSize mask s)
    else perm
  let inv :=
    if aux.length ≠ 0 then
      scatterSet (List.replicate mask.length 0) perm
        ((cumsumFrom 0 mask).map (fun c => c - 1))
    else List.replicate ar.length 0
  let counts :=
    if aux.length ≠ 0 then
      match size with
      | none => diffs (trueIdx mask ++ [mask.length])
      | some s => diffs (fixTail (nonzeroSize mask (s + 1)) mask.length)
    else if ar.length ≠ 0 then [ar.length] else []
  (result, index, inv, counts)

/-- The guard of `_unique` that raises for a zero-sized input with a
truthy `size` argument and no fill value. -/
def uniqueRaises (ar : List Val) (size : Option Nat) (fill : Option Val) : Bool :=
  decide (ar.length = 0)
    && (match size with | some s => decide (s ≠ 0) | none => false)
    && (match fill with | none => true | some _ => false)

/-- `jnp.unique` on a flattened (one-dimensional) array: raises
`InvalidArgument` (modelled by `Except.error`) for an axis-empty input
with nonzero `size` and no `fill_value`, and otherwise returns the four
co-derived outputs. -/
def jnpUnique (ar : List Val) (size : Option Nat) (fill : Option Val) :
    Except String (List Val × List Nat × List Nat × List Nat) :=
  if uniqueRaises ar size fill then
    .error "InvalidArgument: zero-sized input with nonzero size and no fill value"
  else .ok (uniqueParts ar size fill)

/-- The unique values of `jnp.unique(ar)` with no size argument. -/
def uniqueVals (ar : List Val) : List Val := (uniqueParts ar none none).1

/-! ### Membership tester and derived set operators -/

/-- `in1d(ar1, ar2, invert)`: the all-pairs comparison grid reduced per
row (`(ar1[:, None] == ar2[None, :]).any(-1)` and the inverted
`(ar1[:, None] != ar2[None, :]).all(-1)`). -/
def in1d (ar1 ar2 : List Val) (invert : Bool) : List Bool :=
  if invert then ar1.map (fun x => ar2.all fun y => !(veq x y))
  else ar1.map (fun x => ar2.any fun y => veq x y)

/-- `setdiff1d(ar1, ar2, assume_unique, size=, fill_value=)` for
one-dimensional inputs.  The only raising path of the source requires an
empty `ar1`, which the first branch returns from, so the result is a plain
list. -/
def setdiff1d (ar1 ar2 : List Val) (assumeUnique : Bool)
    (size : Option Nat) (fill : Option Val) : List Val :=
  let fv := fill.getD (Val.num 0)
  if ar1.length = 0 then List.replicate (size.getD 0) fv
  else
    let ar1' :=
      if assumeUnique then ar1
      else
        match size with
        | none => uniqueVals ar1
        | some s => (uniqueParts ar1 (some (if s = 0 then 0 else ar1.length)) none).1
    let mask := in1d ar1' ar2 true
    match size with
    | none => bselect ar1' mask
    | some s =>
      let mask :=
        if assumeUnique then mask
        else
          let nUnique :=
            ar1'.length + 1 - countTrue (ar1'.map fun x => veq x (keyAt ar1' 0))
          (List.range ar1'.length).zipWith
            (fun i m => if i < nUnique then m else false) mask
      (List.range s).zipWith
        (fun i v => if i < countTrue mask then v else fv)
        (gather ar1' (nonzeroSize mask s))

/-- `sort(ar)` on values (NaN ordered last). -/
def vleSort (l : List Val) : List Val := l.insertionSort vleP

/-- `intersect1d(ar1, ar2)` with default flags: deduplicate both inputs,
sort the concatenation, and keep the left member of each adjacent equal
pair (`aux[:-1][aux[1:] == aux[:-1]]`). -/
def intersect1d (ar1 ar2 : List Val) : List Val :=
  let u1 := uniqueVals ar1
  let u2 := uniqueVals ar2
  let aux := vleSort (u1 ++ u2)
  let mask := List.zipWith veq (aux.drop 1) aux.dropLast
  bselect aux.dropLast mask

/-! ### `_unique_sorted_mask` for an array with a working axis

Rows list the non-axis components of each element along the working axis
(the array reshaped to `(length along axis, product of other dims)`);
`rowLen` is that product, which is needed even when there are no rows.
This is the general form of the ordering primitive, including the
degenerate branch `if _prod(out_shape) == 0` that installs a length-1
placeholder permutation. -/

/-- Reading row `i`. -/
def rowKey (rows : List (List Val)) (i : Nat) : List Val := rows.getD i []

/-- Per-row uniqueness comparison: `any(neq(r, s))` over the non-axis
components. -/
def rowNeq (r s : List Val) : Bool := (List.zipWith neqV r s).any id

/-- Tail of the row mask, as in `pairNeq`. -/
def pairRowNeq : List Val → List (List Val) → List Bool
  | _, [] => []
  | p, r :: rest => rowNeq r p :: pairRowNeq r rest

/-- The is-first-occurrence mask of a sorted list of rows. -/
def maskOfRows : List (List Val) → List Bool
  | [] => []
  | r :: rest => true :: pairRowNeq r rest

/-- Lexicographic strict order on rows (`lexsort` with the first
component as primary key). -/
def rowLt : List Val → List Val → Bool
  | [], _ => false
  | _ :: _, [] => false
  | a :: as, b :: bs => vlt a b || (decide (a = b) && rowLt as bs)

/-- Comparison on positions inducing the stable argsort of the rows. -/
def permLeRows (rows : List (List Val)) (i j : Nat) : Prop :=
  rowLt (rowKey rows i) (rowKey rows j) = true ∨ (rowKey rows i = rowKey rows j ∧ i ≤ j)

instance (rows : List (List Val)) : DecidableRel (permLeRows rows) := fun _ _ =>
  inferInstanceAs (Decidable (_ ∨ _))

/-- Stable argsort of the rows. -/
def sortPermRows (rows : List (List Val)) : List Nat :=
  (List.range rows.length).insertionSort (permLeRows rows)

/-- `_unique_sorted_mask` with a working axis: if the product of the
non-axis dimensions is zero, the permutation is the length-1 placeholder
`zeros(1)` and `size` is set to `1`; the mask is the run-boundary mask
when `aux.size` is nonzero and `zeros(size)` otherwise. -/
def uniqueSortedMaskND (rowLen : Nat) (rows : List (List Val)) :
    List (List Val) × List Bool × List Nat :=
  let sp := if rowLen = 0 then (1, [0]) else (rows.length, sortPermRows rows)
  let perm := sp.2
  let aux := perm.map (rowKey rows)
  let mask :=
    if aux.length * rowLen ≠ 0 then maskOfRows aux
    else List.replicate sp.1 false
  (aux, mask, perm)

/-! ### Proof-side normal forms

A run-length view of a (sorted) array, used only in proofs: the mask
selection, the counts, and the inverse-index ranks are all read off the
run structure of the sorted array. -/

/-- Run-length encoding of a list by structural equality of adjacent
elements, keeping the first element of each run. -/
def runsRLE : List Val → List (Val × Nat)
  | [] => []
  | x :: rest =>
    match runsRLE rest with
    | [] => [(x, 1)]
    | (y, c) :: t => if x = y then (x, c + 1) :: t else (x, 1) :: (y, c) :: t

/-- Increment the head of a list of counts. -/
def incHead : List Nat → List Nat
  | [] => []
  | c :: t => (c + 1) :: t

/-- Run lengths of the list `p :: l`. -/
def runLens (p : Val) : List Val → List Nat
  | [] => [1]
  | x :: rest => if x = p then incHead (runLens x rest) else 1 :: runLens x rest

/-! ### Basic lemmas about the list primitives -/

theorem getD_map_range {α : Type} (l : List α) (d : α) :
    (List.range l.length).map (fun i => l.getD i d) = l := by
  induction l with
  | nil => rfl
  | cons x xs ih =>
    rw [List.length_cons, List.range_succ_eq_map, List.map_cons, List.map_map]
    refine congrArg (x :: ·) ?_
    simpa [Function.comp_def] using ih

theorem gather_range (l : List Val) : gather l (List.range l.length) = l :=
  getD_map_range l Val.nan

theorem length_pairNeq (p : Val) (l : List Val) : (pairNeq p l).length = l.length := by
  induction l generalizing p with
  | nil => rfl
  | cons x rest ih => simpa [pairNeq] using ih x

theorem length_maskOf (l : List Val) : (maskOf l).length = l.length := by
  cases l with
  | nil => rfl
  | cons x rest => simp [maskOf, length_pairNeq]

theorem length_trueIdxFrom (k : Nat) (m : List Bool) :
    (trueIdxFrom k m).length = countTrue m := by
  induction m generalizing k with
  | nil => rfl
  | cons b m ih =>
    cases b <;> simp [trueIdxFrom, countTrue, ih] <;> omega

theorem trueIdxFrom_ge (k : Nat) (m : List Bool) : ∀ i ∈ trueIdxFrom k m, k ≤ i := by
  induction m generalizing k with
  | nil => intro i hi; simp [trueIdxFrom] at hi
  | cons b m ih =>
    intro i hi
    cases b with
    | false =>
      have := ih (k + 1) i (by simpa [trueIdxFrom] using hi)
      omega
    | true =>
      rcases (by simpa [trueIdxFrom] using hi : i = k ∨ i ∈ trueIdxFrom (k + 1) m) with h | h
      · omega
      · have := ih (k + 1) i h
        omega

theorem countTrue_append (m₁ m₂ : List Bool) :
    countTrue (m₁ ++ m₂) = countTrue m₁ + countTrue m₂ := by
  induction m₁ with
  | nil => simp [countTrue]
  | cons b m ih => simp [countTrue, ih]; omega

theorem cumsumFrom_getD (m : List Bool) : ∀ a j, j < m.length →
    (cumsumFrom a m).getD j 0 = a + countTrue (m.take (j + 1)) := by
  induction m with
  | nil => intro a j hj; simp at hj
  | cons b m ih =>
    intro a j hj
    cases j with
    | zero => simp [cumsumFrom, countTrue]
    | succ j =>
      have := ih (a + b.toNat) j (by simpa using hj)
      simp only [cumsumFrom, List.getD_cons_succ, List.take_succ_cons, countTrue] at *
      omega

theorem length_cumsumFrom (a : Nat) (m : List Bool) :
    (cumsumFrom a m).length = m.length := by
  induction m generalizing a with
  | nil => rfl
  | cons b m ih => simp [cumsumFrom, ih]

theorem getD_set_self {α : Type} (d : α) :
    ∀ (l : List α) (p : Nat) (v : α), p < l.length → (l.set p v).getD p d = v := by
  intro l
  induction l with
  | nil => intro p v hp; simp at hp
  | cons x xs ih =>
    intro p v hp
    cases p with
    | zero => rfl
    | succ p => simpa [List.set_cons_succ] using ih p v (by simpa using hp)

theorem getD_set_other {α : Type} (d : α) :
    ∀ (l : List α) (p q : Nat) (v : α), p ≠ q → (l.set p v).getD q d = l.getD q d := by
  intro l
  induction l with
  | nil => intro p q v _; simp
  | cons x xs ih =>
    intro p q v hpq
    cases p with
    | zero =>
      cases q with
      | zero => exact absurd rfl hpq
      | succ q => rfl
    | succ p =>
      cases q with
      | zero => rfl
      | succ q => simpa [List.set_cons_succ] using ih p q v (by omega)

theorem length_scatterSet : ∀ (ps vs : List Nat) (base : List Nat),
    (scatterSet base ps vs).length = base.length := by
  intro ps
  induction ps with
  | nil => intro vs base; cases vs <;> rfl
  | cons p ps ih =>
    intro vs base
    cases vs with
    | nil => rfl
    | cons v vs => simpa [scatterSet] using ih vs (base.set p v)

theorem scatterSet_getD_not_mem : ∀ (ps vs base : List Nat) (q : Nat), q ∉ ps →
    (scatterSet base ps vs).getD q 0 = base.getD q 0 := by
  intro ps
  induction ps with
  | nil => intro vs base q _; cases vs <;> rfl
  | cons p ps ih =>
    intro vs base q hq
    cases vs with
    | nil => rfl
    | cons v vs =>
      have h₁ : q ∉ ps := fun h => hq (List.mem_cons_of_mem _ h)
      have h₂ : p ≠ q := fun h => hq (h ▸ List.mem_cons_self p ps)
      rw [scatterSet, ih vs _ q h₁, getD_set_other 0 base p q v h₂]

theorem scatterSet_getD : ∀ (ps vs base : List Nat) (j : Nat), ps.Nodup →
    (∀ q ∈ ps, q < base.length) → j < ps.length → j < vs.length →
    (scatterSet base ps vs).getD (ps.getD j 0) 0 = vs.getD j 0 := by
  intro ps
  induction ps with
  | nil => intro vs base j _ _ hj _; simp at hj
  | cons p ps ih =>
    intro vs base j hnd hlt hj hv
    cases vs with
    | nil => simp at hv
    | cons v vs =>
      cases j with
      | zero =>
        rw [scatterSet, List.getD_cons_zero, List.getD_cons_zero,
          scatterSet_getD_not_mem ps vs _ p (by simpa using (List.nodup_cons.mp hnd).1)]
        exact getD_set_self 0 base p v (hlt p (List.mem_cons_self p ps))
      | succ j =>
        rw [scatterSet, List.getD_cons_succ, List.getD_cons_succ]
        refine ih vs (base.set p v) j (List.nodup_cons.mp hnd).2 ?_ (by simpa using hj)
          (by simpa using hv)
        intro q hq
        rw [List.length_set]
        exact hlt q (List.mem_cons_of_mem _ hq)

/-! ### Facts about the ordering primitive -/

theorem vlt_trichotomy (x y : Val) : vlt x y = true ∨ x = y ∨ vlt y x = true := by
  cases x <;> cases y <;> simp [vlt] <;> omega

theorem permLe_total (ar : List Val) : ∀ i j, permLe ar i j ∨ permLe ar j i := by
  intro i j
  rcases vlt_trichotomy (keyAt ar i) (keyAt ar j) with h | h | h
  · exact Or.inl (Or.inl h)
  · rcases Nat.le_total i j with hij | hij
    · exact Or.inl (Or.inr ⟨h, hij⟩)
    · exact Or.inr (Or.inr ⟨h.symm, hij⟩)
  · exact Or.inr (Or.inl h)

theorem permLe_trans (ar : List Val) :
    ∀ i j k, permLe ar i j → permLe ar j k → permLe ar i k := by
  intro i j k hij hjk
  rcases hij with h₁ | ⟨e₁, le₁⟩
  · rcases hjk with h₂ | ⟨e₂, _⟩
    · exact Or.inl (vlt_trans h₁ h₂)
    · exact Or.inl (e₂ ▸ h₁)
  · rcases hjk with h₂ | ⟨e₂, le₂⟩
    · exact Or.inl (e₁ ▸ h₂)
    · exact Or.inr ⟨e₁.trans e₂, le₁.trans le₂⟩

instance (ar : List Val) : IsTotal Nat (permLe ar) := ⟨permLe_total ar⟩

instance (ar : List Val) : IsTrans Nat (permLe ar) := ⟨permLe_trans ar⟩

theorem sortPerm_perm (ar : List Val) : (sortPerm ar).Perm (List.range ar.length) :=
  List.perm_insertionSort _ _

theorem length_sortPerm (ar : List Val) : (sortPerm ar).length = ar.length := by
  simpa using (sortPerm_perm ar).length_eq

theorem mem_sortPerm_lt (ar : List Val) {i : Nat} (h : i ∈ sortPerm ar) :
    i < ar.length := by
  have := (sortPerm_perm ar).mem_iff.mp h
  simpa using this

theorem sortPerm_sorted (ar : List Val) : List.Sorted (permLe ar) (sortPerm ar) :=
  List.sorted_insertionSort _ _

theorem sortedArr_perm (ar : List Val) : (gather ar (sortPerm ar)).Perm ar := by
  have h := (sortPerm_perm ar).map (keyAt ar)
  rw [show (List.range ar.length).map (keyAt ar) = ar from gather_range ar] at h
  exact h

theorem length_sortedArr (ar : List Val) : (gather ar (sortPerm ar)).length = ar.length := by
  simp [gather, length_sortPerm]

theorem sortedArr_pairwise (ar : List Val) :
    (gather ar (sortPerm ar)).Pairwise vleP := by
  refine (sortPerm_sorted ar).map (keyAt ar) ?_
  intro i j hij
  rcases hij with h | ⟨e, _⟩
  · exact vle_of_vlt h
  · exact e ▸ vle_refl _

theorem sortedArr_chain (ar : List Val) :
    List.Chain' vleP (gather ar (sortPerm ar)) :=
  (sortedArr_pairwise ar).chain'

/-! ### The run-length view of the sorted array -/

theorem runsRLE_ne_nil (x : Val) (rest : List Val) : runsRLE (x :: rest) ≠ [] := by
  cases h : runsRLE rest with
  | nil => simp [runsRLE, h]
  | cons p t =>
    obtain ⟨y, c⟩ := p
    by_cases hxy : x = y <;> simp [runsRLE, h, hxy]

theorem runsRLE_head_fst (x : Val) (rest : List Val) :
    ∃ c t, runsRLE (x :: rest) = (x, c) :: t := by
  cases h : runsRLE rest with
  | nil => exact ⟨1, [], by simp [runsRLE, h]⟩
  | cons p t =>
    obtain ⟨y, c⟩ := p
    by_cases hxy : x = y
    · exact ⟨c + 1, t, by simp [runsRLE, h, hxy]⟩
    · exact ⟨1, (y, c) :: t, by simp [runsRLE, h, hxy]⟩

theorem runsRLE_cons_eq (x : Val) (rest : List Val) :
    runsRLE (x :: rest) = match runsRLE rest with
      | [] => [(x, 1)]
      | (y, c) :: t => if x = y then (x, c + 1) :: t else (x, 1) :: (y, c) :: t := rfl

theorem runsRLE_single (x : Val) : runsRLE [x] = [(x, 1)] := rfl

theorem runsRLE_cons_of_eq {x y : Val} {rest : List Val} {c : Nat} {t : List (Val × Nat)}
    (h : runsRLE (y :: rest) = (y, c) :: t) (hxy : x = y) :
    runsRLE (x :: y :: rest) = (x, c + 1) :: t := by
  rw [runsRLE_cons_eq, h]
  exact if_pos hxy

theorem runsRLE_cons_of_ne {x y : Val} {rest : List Val} {c : Nat} {t : List (Val × Nat)}
    (h : runsRLE (y :: rest) = (y, c) :: t) (hxy : x ≠ y) :
    runsRLE (x :: y :: rest) = (x, 1) :: (y, c) :: t := by
  rw [runsRLE_cons_eq, h]
  exact if_neg hxy

theorem runLens_cons (p x : Val) (rest : List Val) :
    runLens p (x :: rest)
      = if x = p then incHead (runLens x rest) else 1 :: runLens x rest := rfl

theorem countTrue_cons_true (m : List Bool) :
    countTrue (true :: m) = countTrue m + 1 := by
  show 1 + countTrue m = countTrue m + 1
  omega

theorem countTrue_cons_false (m : List Bool) :
    countTrue (false :: m) = countTrue m := by
  show 0 + countTrue m = countTrue m
  omega

theorem neqV_eq_false_of_eq {x p : Val} (h : x = p) : neqV x p = false := by
  rw [← Bool.not_eq_true, neqV_iff]
  simp [h]

theorem neqV_eq_true_of_ne {x p : Val} (h : x ≠ p) : neqV x p = true := by
  rw [neqV_iff]
  exact h

theorem flatten_runsRLE (l : List Val) :
    ((runsRLE l).map (fun p => List.replicate p.2 p.1)).flatten = l := by
  induction l with
  | nil => rfl
  | cons x rest ih =>
    cases rest with
    | nil => simp [runsRLE_single]
    | cons y t =>
      obtain ⟨c, tt, hct⟩ := runsRLE_head_fst y t
      rw [hct] at ih
      by_cases hxy : x = y
      · subst hxy
        rw [runsRLE_cons_of_eq hct rfl]
        simp only [List.map_cons, List.flatten_cons, List.replicate_succ,
          List.cons_append] at ih ⊢
        rw [ih]
      · rw [runsRLE_cons_of_ne hct hxy]
        simp only [List.map_cons, List.flatten_cons, List.replicate_succ,
          List.replicate_zero, List.cons_append, List.nil_append] at ih ⊢
        rw [ih]

theorem bselect_pairNeq (l : List Val) : ∀ (p : Val),
    bselect l (pairNeq p l) = ((runsRLE (p :: l)).map Prod.fst).tail := by
  induction l with
  | nil => intro p; simp [pairNeq, bselect, runsRLE_single]
  | cons x rest ih =>
    intro p
    obtain ⟨c, t, hct⟩ := runsRLE_head_fst x rest
    have ihx := ih x
    rw [hct] at ihx
    by_cases hxp : x = p
    · rw [pairNeq, neqV_eq_false_of_eq hxp, runsRLE_cons_of_eq hct hxp.symm]
      simpa [bselect] using ihx
    · have hpx : p ≠ x := fun h => hxp h.symm
      rw [pairNeq, neqV_eq_true_of_ne hxp, runsRLE_cons_of_ne hct hpx]
      simp only [List.map_cons, List.tail_cons] at ihx ⊢
      simp [bselect, ihx]

theorem bselect_maskOf (l : List Val) :
    bselect l (maskOf l) = (runsRLE l).map Prod.fst := by
  cases l with
  | nil => rfl
  | cons x rest =>
    obtain ⟨c, t, hct⟩ := runsRLE_head_fst x rest
    rw [maskOf, show bselect (x :: rest) (true :: pairNeq x rest)
        = x :: bselect rest (pairNeq x rest) from rfl,
      bselect_pairNeq rest x, hct]
    rfl

theorem diffs_head_shift (k : Nat) (L : List Nat) (h0 : L ≠ [])
    (h1 : k + 1 ≤ L.headD 0) : diffs (k :: L) = incHead (diffs ((k + 1) :: L)) := by
  cases L with
  | nil => exact absurd rfl h0
  | cons b L' =>
    simp only [List.headD_cons] at h1
    simp only [diffs, incHead]
    congr 1
    omega

theorem headD_trueIdxFrom_append (k n : Nat) (m : List Bool) (hn : k ≤ n) :
    k ≤ (trueIdxFrom k m ++ [n]).headD 0 := by
  cases h : trueIdxFrom k m with
  | nil => simpa using hn
  | cons i rest =>
    have : i ∈ trueIdxFrom k m := by rw [h]; exact List.mem_cons_self i rest
    simpa using trueIdxFrom_ge k m i this

theorem diffs_trueIdx_pairNeq (l : List Val) : ∀ (p : Val) (k : Nat),
    diffs (k :: (trueIdxFrom (k + 1) (pairNeq p l) ++ [k + 1 + l.length]))
      = runLens p l := by
  induction l with
  | nil => intro p k; simp [pairNeq, trueIdxFrom, diffs, runLens]
  | cons x rest ih =>
    intro p k
    rw [pairNeq]
    by_cases hxp : x = p
    · rw [neqV_eq_false_of_eq hxp, show trueIdxFrom (k + 1) (false :: pairNeq x rest)
          = trueIdxFrom (k + 1 + 1) (pairNeq x rest) from rfl]
      have hshift := diffs_head_shift k
        (trueIdxFrom (k + 1 + 1) (pairNeq x rest) ++ [k + 1 + (x :: rest).length])
        (by simp) ?_
      · rw [hshift]
        have e : k + 1 + (x :: rest).length = k + 1 + 1 + rest.length := by
          simp [List.length_cons]
          omega
        rw [e, ih x (k + 1), runLens_cons, if_pos hxp]
      · refine le_trans (by omega) (headD_trueIdxFrom_append (k + 1 + 1) _ _ ?_)
        simp [List.length_cons]
    · rw [neqV_eq_true_of_ne hxp, show trueIdxFrom (k + 1) (true :: pairNeq x rest)
          = (k + 1) :: trueIdxFrom (k + 1 + 1) (pairNeq x rest) from rfl]
      have e : k + 1 + (x :: rest).length = k + 1 + 1 + rest.length := by
        simp [List.length_cons]
        omega
      rw [List.cons_append, show
          diffs (k :: (k + 1) :: (trueIdxFrom (k + 1 + 1) (pairNeq x rest)
            ++ [k + 1 + (x :: rest).length]))
          = (k + 1 - k) :: diffs ((k + 1) :: (trueIdxFrom (k + 1 + 1) (pairNeq x rest)
            ++ [k + 1 + (x :: rest).length])) from rfl, e, ih x (k + 1),
        runLens_cons, if_neg hxp]
      norm_num

theorem runLens_eq (l : List Val) : ∀ (p : Val),
    runLens p l = (runsRLE (p :: l)).map Prod.snd := by
  induction l with
  | nil => intro p; simp [runLens, runsRLE_single]
  | cons x rest ih =>
    intro p
    obtain ⟨c, t, hct⟩ := runsRLE_head_fst x rest
    have ihx := ih x
    rw [hct] at ihx
    by_cases hxp : x = p
    · rw [runLens_cons, if_pos hxp, runsRLE_cons_of_eq hct hxp.symm]
      simp [ihx, incHead]
    · have hpx : p ≠ x := fun h => hxp h.symm
      rw [runLens_cons, if_neg hxp, runsRLE_cons_of_ne hct hpx]
      simp [ihx]

theorem counts_bridge (l : List Val) :
    diffs (trueIdx (maskOf l) ++ [l.length]) = (runsRLE l).map Prod.snd := by
  cases l with
  | nil => rfl
  | cons x rest =>
    rw [maskOf, trueIdx, show trueIdxFrom 0 (true :: pairNeq x rest)
        = 0 :: trueIdxFrom 1 (pairNeq x rest) from rfl, List.cons_append,
      show (x :: rest).length = 0 + 1 + rest.length by
        rw [List.length_cons]; omega,
      show (1 : Nat) = 0 + 1 from rfl, diffs_trueIdx_pairNeq rest x 0,
      runLens_eq rest x]

theorem runsRLE_fst_chain (l : List Val) (h : List.Chain' vleP l) :
    List.Chain' vltP ((runsRLE l).map Prod.fst) := by
  induction l with
  | nil => simp [runsRLE]
  | cons x rest ih =>
    cases rest with
    | nil => simp [runsRLE_single]
    | cons y t =>
      obtain ⟨c, tt, hct⟩ := runsRLE_head_fst y t
      have hxy : vleP x y := (List.chain'_cons.mp h).1
      have ih' := ih (List.chain'_cons.mp h).2
      rw [hct] at ih'
      by_cases hxy' : x = y
      · subst hxy'
        rw [runsRLE_cons_of_eq hct rfl]
        simpa using ih'
      · rw [runsRLE_cons_of_ne hct hxy']
        rw [List.map_cons] at ih' ⊢
        rw [List.map_cons]
        exact List.chain'_cons.mpr ⟨vlt_of_vle_ne hxy hxy', ih'⟩

theorem runsRLE_fst_head (x : Val) (rest : List Val) (dv : Val) :
    ((runsRLE (x :: rest)).map Prod.fst).getD 0 dv = x := by
  obtain ⟨c, t, hct⟩ := runsRLE_head_fst x rest
  rw [hct]
  rfl

theorem rank_pairNeq (l : List Val) : ∀ (p dv : Val) (j : Nat), j < l.length →
    ((runsRLE (p :: l)).map Prod.fst).getD
        (countTrue ((pairNeq p l).take (j + 1))) dv
      = l.getD j dv := by
  induction l with
  | nil => intro p dv j hj; simp at hj
  | cons x rest ih =>
    intro p dv j hj
    obtain ⟨c, t, hct⟩ := runsRLE_head_fst x rest
    cases j with
    | zero =>
      rw [pairNeq, List.take_succ_cons, List.take_zero]
      by_cases hxp : x = p
      · rw [neqV_eq_false_of_eq hxp, show countTrue [false] = 0 from rfl,
          runsRLE_fst_head p (x :: rest) dv, hxp]
        rfl
      · have hpx : p ≠ x := fun h => hxp h.symm
        rw [neqV_eq_true_of_ne hxp, show countTrue [true] = 1 from rfl,
          runsRLE_cons_of_ne hct hpx, List.map_cons, List.getD_cons_succ,
          List.map_cons, List.getD_cons_zero, List.getD_cons_zero]
    | succ j =>
      have hj' : j < rest.length := by simpa using hj
      rw [pairNeq, List.take_succ_cons]
      by_cases hxp : x = p
      · have hsame : ((runsRLE (p :: x :: rest)).map Prod.fst)
            = ((runsRLE (x :: rest)).map Prod.fst) := by
          rw [runsRLE_cons_of_eq hct hxp.symm, hct, List.map_cons, List.map_cons,
            hxp]
        rw [neqV_eq_false_of_eq hxp, countTrue_cons_false, hsame,
          List.getD_cons_succ]
        exact ih x dv j hj'
      · have hpx : p ≠ x := fun h => hxp h.symm
        rw [neqV_eq_true_of_ne hxp, countTrue_cons_true,
          runsRLE_cons_of_ne hct hpx, List.map_cons, List.getD_cons_succ,
          ← hct, List.getD_cons_succ]
        exact ih x dv j hj'

theorem rank_maskOf (l : List Val) (dv : Val) : ∀ j, j < l.length →
    ((runsRLE l).map Prod.fst).getD
        (countTrue ((maskOf l).take (j + 1)) - 1) dv
      = l.getD j dv := by
  cases l with
  | nil => intro j hj; simp at hj
  | cons x rest =>
    intro j hj
    cases j with
    | zero =>
      rw [maskOf, List.take_succ_cons, List.take_zero,
        show countTrue [true] - 1 = 0 from rfl, runsRLE_fst_head x rest dv,
        List.getD_cons_zero]
    | succ j =>
      have hj' : j < rest.length := by simpa using hj
      rw [maskOf, List.take_succ_cons, countTrue_cons_true,
        Nat.add_sub_cancel, List.getD_cons_succ]
      exact rank_pairNeq rest x dv j hj'

/-! ### The outputs of `_unique` in run-length normal form -/

theorem uniqueVals_eq_bselect (ar : List Val) :
    uniqueVals ar
      = bselect (gather ar (sortPerm ar)) (maskOf (gather ar (sortPerm ar))) := by
  show (if (gather ar (sortPerm ar)).length ≠ 0
      then bselect (gather ar (sortPerm ar)) (maskOf (gather ar (sortPerm ar)))
      else gather ar (sortPerm ar)) = _
  split
  · rfl
  · next h =>
    have h0 : gather ar (sortPerm ar) = [] := by
      simpa using List.length_eq_zero.mp (by omega)
    rw [h0]
    rfl

theorem uniqueVals_eq (ar : List Val) :
    uniqueVals ar = (runsRLE (gather ar (sortPerm ar))).map Prod.fst := by
  rw [uniqueVals_eq_bselect, bselect_maskOf]

theorem uniqueCounts_eq (ar : List Val) :
    (uniqueParts ar none none).2.2.2
      = (runsRLE (gather ar (sortPerm ar))).map Prod.snd := by
  show (if (gather ar (sortPerm ar)).length ≠ 0
      then diffs (trueIdx (maskOf (gather ar (sortPerm ar)))
        ++ [(maskOf (gather ar (sortPerm ar))).length])
      else if ar.length ≠ 0 then [ar.length] else []) = _
  split
  · rw [length_maskOf, counts_bridge]
  · next h =>
    have h0 : gather ar (sortPerm ar) = [] := by
      simpa using List.length_eq_zero.mp (by omega)
    have har : ar.length = 0 := by
      rw [← length_sortedArr ar, h0]
      rfl
    rw [h0, if_neg (by omega)]
    rfl

theorem uniqueVals_chain (ar : List Val) : List.Chain' vltP (uniqueVals ar) := by
  rw [uniqueVals_eq]
  exact runsRLE_fst_chain _ (sortedArr_chain ar)

theorem uniqueVals_pairwise_ne (ar : List Val) :
    (uniqueVals ar).Pairwise (· ≠ ·) :=
  (List.chain'_iff_pairwise.mp (uniqueVals_chain ar)).imp (fun h => vlt_ne h)

theorem mem_uniqueVals_of_mem {ar : List Val} {v : Val} (hv : v ∈ ar) :
    v ∈ uniqueVals ar := by
  rw [uniqueVals_eq]
  have hv' : v ∈ gather ar (sortPerm ar) := (sortedArr_perm ar).mem_iff.mpr hv
  rw [← flatten_runsRLE (gather ar (sortPerm ar))] at hv'
  obtain ⟨l, hl, hvl⟩ := List.mem_flatten.mp hv'
  obtain ⟨p, hp, rfl⟩ := List.mem_map.mp hl
  rw [List.eq_of_mem_replicate hvl]
  exact List.mem_map.mpr ⟨p, hp, rfl⟩

theorem pairNeq_getD (l : List Val) : ∀ (p : Val) (i : Nat), i < l.length →
    (pairNeq p l).getD i false
      = neqV (l.getD i Val.nan) ((p :: l).getD i Val.nan) := by
  induction l with
  | nil => intro p i hi; simp at hi
  | cons x rest ih =>
    intro p i hi
    cases i with
    | zero => simp [pairNeq]
    | succ i =>
      rw [pairNeq, List.getD_cons_succ, List.getD_cons_succ, List.getD_cons_succ]
      exact ih x i (by simpa using hi)

/-! ### Counting lemmas for the multiplicity property -/

theorem countP_replicate (p : Val → Bool) (c : Nat) (y : Val) :
    (List.replicate c y).countP p = if p y then c else 0 := by
  induction c with
  | zero => simp
  | succ c ih =>
    rw [List.replicate_succ, List.countP_cons]
    cases h : p y <;> simp [ih, h]

theorem countP_flatten_runs_zero (rs : List (Val × Nat)) (u : Val)
    (hu : ∀ q ∈ rs, q.1 ≠ u) :
    ((rs.map fun p => List.replicate p.2 p.1).flatten).countP
      (fun e => eqRule e u) = 0 := by
  induction rs with
  | nil => rfl
  | cons q t ih =>
    rw [List.map_cons, List.flatten_cons, List.countP_append, countP_replicate]
    rw [if_neg ?_, ih (fun r hr => hu r (List.mem_cons_of_mem _ hr))]
    intro hcon
    exact hu q (List.mem_cons_self q t) ((eqRule_iff _ _).mp hcon)

theorem countP_flatten_runs_getD (rs : List (Val × Nat)) : ∀ (k : Nat),
    k < rs.length → (rs.map Prod.fst).Pairwise (· ≠ ·) →
    ((rs.map fun p => List.replicate p.2 p.1).flatten).countP
        (fun e => eqRule e ((rs.map Prod.fst).getD k Val.nan))
      = (rs.map Prod.snd).getD k 0 := by
  induction rs with
  | nil => intro k hk _; simp at hk
  | cons q t ih =>
    intro k hk hnd
    obtain ⟨y, c⟩ := q
    rw [List.map_cons, List.map_cons, List.map_cons, List.flatten_cons,
      List.countP_append]
    have hnd' := List.pairwise_cons.mp hnd
    cases k with
    | zero =>
      have hz : ((t.map fun p => List.replicate p.2 p.1).flatten).countP
          (fun e => eqRule e y) = 0 := by
        refine countP_flatten_runs_zero t y ?_
        intro r hr hcon
        exact hnd'.1 r.1 (List.mem_map.mpr ⟨r, hr, rfl⟩) hcon.symm
      rw [List.getD_cons_zero, List.getD_cons_zero, countP_replicate,
        if_pos ((eqRule_iff y y).mpr rfl), hz]
      simp
    | succ k =>
      have hk' : k < t.length := by simpa using hk
      have hky : eqRule y ((t.map Prod.fst).getD k Val.nan) = false := by
        rw [← Bool.not_eq_true]
        intro hcon
        have hlt : k < (t.map Prod.fst).length := by simpa using hk'
        have hmem : (t.map Prod.fst).getD k Val.nan ∈ t.map Prod.fst := by
          rw [List.getD_eq_getElem _ _ hlt]
          exact List.getElem_mem hlt
        exact hnd'.1 _ hmem ((eqRule_iff _ _).mp hcon)
      rw [List.getD_cons_succ, List.getD_cons_succ, countP_replicate,
        ih k hk' hnd'.2]
      show (if eqRule y ((t.map Prod.fst).getD k Val.nan) = true then c else 0)
          + (t.map Prod.snd).getD k 0 = (t.map Prod.snd).getD k 0
      rw [hky]
      simp

theorem countP_eqRule_uniqueVals (ar : List Val) (k : Nat)
    (hk : k < (uniqueVals ar).length) :
    ar.countP (fun e => eqRule e ((uniqueVals ar).getD k Val.nan))
      = ((runsRLE (gather ar (sortPerm ar))).map Prod.snd).getD k 0 := by
  rw [← (sortedArr_perm ar).countP_eq, uniqueVals_eq,
    ← countP_flatten_runs_getD (runsRLE (gather ar (sortPerm ar))) k
      (by simpa [uniqueVals_eq] using hk)
      (by
        have := uniqueVals_pairwise_ne ar
        rw [uniqueVals_eq] at this
        exact this),
    flatten_runsRLE]

/-! ### Lemmas for the fixed-size padding path -/

theorem length_nonzeroSize (m : List Bool) (s : Nat) :
    (nonzeroSize m s).length = s := by
  rw [nonzeroSize, List.length_take, List.length_append, List.length_replicate]
  omega

theorem getD_replicate_self {α : Type} (d : α) :
    ∀ (c i : Nat), (List.replicate c d).getD i d = d := by
  intro c
  induction c with
  | zero => intro i; simp
  | succ c ih =>
    intro i
    cases i with
    | zero => simp [List.replicate_succ]
    | succ i => simpa [List.replicate_succ] using ih i

theorem nonzeroSize_getD_of_ge (m : List Bool) (s i : Nat)
    (h₁ : countTrue m ≤ i) (h₂ : i < s) : (nonzeroSize m s).getD i 0 = 0 := by
  have hlen : (trueIdx m).length = countTrue m := length_trueIdxFrom 0 m
  rw [nonzeroSize, List.getD_eq_getElem?_getD, List.getElem?_take,
    if_pos h₂, ← List.getD_eq_getElem?_getD,
    List.getD_append_right _ _ _ _ (by omega), hlen]
  exact getD_replicate_self 0 s (i - countTrue m)

theorem sum_runsRLE_snd (l : List Val) :
    ((runsRLE l).map Prod.snd).sum = l.length := by
  conv_rhs => rw [← flatten_runsRLE l]
  rw [List.length_flatten, List.map_map]
  refine congrArg List.sum (List.map_congr_left ?_)
  intro p _
  simp

theorem all_not_eq_not_any (x : Val) (b : List Val) :
    (b.all fun y => !(veq x y)) = !(b.any fun y => veq x y) := by
  induction b with
  | nil => rfl
  | cons y ys ih => simp [List.all_cons, List.any_cons, ih]

theorem bselect_pairNeq_chain : ∀ (l : List Val) (p : Val),
    List.Chain' vltP (p :: l) → bselect l (pairNeq p l) = l := by
  intro l
  induction l with
  | nil => intro p _; rfl
  | cons x rest ih =>
    intro p h
    have h1 : vltP p x := (List.chain'_cons.mp h).1
    rw [pairNeq, neqV_eq_true_of_ne (fun he => vlt_ne h1 he.symm)]
    show x :: bselect rest (pairNeq x rest) = x :: rest
    rw [ih x (List.chain'_cons.mp h).2]

theorem bselect_maskOf_chain (l : List Val) (h : List.Chain' vltP l) :
    bselect l (maskOf l) = l := by
  cases l with
  | nil => rfl
  | cons x rest =>
    rw [maskOf]
    show x :: bselect rest (pairNeq x rest) = x :: rest
    rw [bselect_pairNeq_chain rest x h]

theorem uniqueInv_eq (ar : List Val) (har : ar ≠ []) :
    (uniqueParts ar none none).2.2.1
      = scatterSet (List.replicate (maskOf (gather ar (sortPerm ar))).length 0)
          (sortPerm ar)
          ((cumsumFrom 0 (maskOf (gather ar (sortPerm ar)))).map (fun c => c - 1)) := by
  show (if (gather ar (sortPerm ar)).length ≠ 0
      then scatterSet (List.replicate (maskOf (gather ar (sortPerm ar))).length 0)
        (sortPerm ar)
        ((cumsumFrom 0 (maskOf (gather ar (sortPerm ar)))).map (fun c => c - 1))
      else List.replicate ar.length 0) = _
  rw [if_pos ?_]
  rw [length_sortedArr]
  intro h
  exact har (List.length_eq_zero.mp h)

theorem imask_getD (m : List Bool) (j : Nat) (hj : j < m.length) :
    ((cumsumFrom 0 m).map (fun c => c - 1)).getD j 0
      = countTrue (m.take (j + 1)) - 1 := by
  have hc : j < (cumsumFrom 0 m).length := by rw [length_cumsumFrom]; exact hj
  have hm : j < ((cumsumFrom 0 m).map (fun c => c - 1)).length := by
    rw [List.length_map]; exact hc
  rw [List.getD_eq_getElem _ _ hm, List.getElem_map, ← List.getD_eq_getElem _ _ hc,
    cumsumFrom_getD m 0 j hj, Nat.zero_add]

theorem uniqueValsSize_eq (ar : List Val) (har : ar ≠ []) (s : Nat) :
    (uniqueParts ar (some s) none).1
      = gather (gather ar (sortPerm ar))
          (nonzeroSize (maskOf (gather ar (sortPerm ar))) s) := by
  show (if (gather ar (sortPerm ar)).length ≠ 0
      then gather (gather ar (sortPerm ar))
        (nonzeroSize (maskOf (gather ar (sortPerm ar))) s)
      else gather ar (sortPerm ar)) = _
  rw [if_pos ?_]
  rw [length_sortedArr]
  intro h
  exact har (List.length_eq_zero.mp h)

theorem uniqueVals_getD_zero (ar : List Val) :
    (uniqueVals ar).getD 0 Val.nan = (gather ar (sortPerm ar)).getD 0 Val.nan := by
  rw [uniqueVals_eq]
  cases haux : gather ar (sortPerm ar) with
  | nil => rfl
  | cons a rest => rw [runsRLE_fst_head a rest, List.getD_cons_zero]

theorem gather_getD (aux : List Val) (idx : List Nat) : ∀ (i : Nat),
    i < idx.length → (gather aux idx).getD i Val.nan = keyAt aux (idx.getD i 0) := by
  induction idx with
  | nil => intro i hi; simp at hi
  | cons a idx ih =>
    intro i hi
    cases i with
    | zero => rfl
    | succ i =>
      show (gather aux idx).getD i Val.nan = _
      exact ih i (by simpa using hi)

theorem vleSort_append_comm (a b : List Val) : vleSort (a ++ b) = vleSort (b ++ a) :=
  List.eq_of_perm_of_sorted
    (((List.perm_insertionSort vleP (a ++ b)).trans List.perm_append_comm).trans
      (List.perm_insertionSort vleP (b ++ a)).symm)
    (List.sorted_insertionSort vleP (a ++ b))
    (List.sorted_insertionSort vleP (b ++ a))

/-! ### The claims -/

/-- C1: for every array `x`, `unique(x)` (no size argument) contains no two
elements that are equal under the NaN-equal-to-NaN rule, and every element
of `x` equals some element of `unique(x)`; moreover the boolean mask
computed from the sorted array is true at position 0 (for a nonempty
input) and at position `i > 0` exactly when the sorted element at `i`
differs from the one at `i - 1` under that rule. -/
theorem C1_unique_nodup_cover (x : List Val) :
    (uniqueVals x).Pairwise (fun a b => eqRule a b = false)
    ∧ (∀ v ∈ x, ∃ u ∈ uniqueVals x, eqRule v u = true)
    ∧ (x ≠ [] → (uniqueSortedMask x).2.1.getD 0 false = true)
    ∧ (∀ i, 0 < i → i < x.length →
        (uniqueSortedMask x).2.1.getD i false
          = !(eqRule ((uniqueSortedMask x).1.getD i Val.nan)
              ((uniqueSortedMask x).1.getD (i - 1) Val.nan))) := by
  have hlen : (gather x (sortPerm x)).length = x.length := length_sortedArr x
  refine ⟨?_, ?_, ?_, ?_⟩
  · exact (uniqueVals_pairwise_ne x).imp
      (fun h => Bool.eq_false_iff.mpr (fun hc => h ((eqRule_iff _ _).mp hc)))
  · intro v hv
    exact ⟨v, mem_uniqueVals_of_mem hv, (eqRule_iff v v).mpr rfl⟩
  · intro hx
    show (maskOf (gather x (sortPerm x))).getD 0 false = true
    cases haux : gather x (sortPerm x) with
    | nil =>
      rw [haux] at hlen
      exact absurd (List.length_eq_zero.mp hlen.symm) hx
    | cons a rest => rw [maskOf, List.getD_cons_zero]
  · intro i h0 hi
    obtain ⟨j, rfl⟩ : ∃ j, i = j + 1 := ⟨i - 1, by omega⟩
    show (maskOf (gather x (sortPerm x))).getD (j + 1) false
      = !(eqRule ((gather x (sortPerm x)).getD (j + 1) Val.nan)
          ((gather x (sortPerm x)).getD (j + 1 - 1) Val.nan))
    cases haux : gather x (sortPerm x) with
    | nil =>
      exfalso
      rw [haux] at hlen
      simp at hlen
      omega
    | cons a rest =>
      have hj : j < rest.length := by
        rw [haux] at hlen
        simp only [List.length_cons] at hlen
        omega
      rw [maskOf, List.getD_cons_succ, pairNeq_getD rest a j hj,
        Nat.add_sub_cancel, List.getD_cons_succ, neqV_eq_not_eqRule]

/-- C1 witness at the concrete input `[3, 1, 2, 1, 3]`. -/
theorem C1_witness :
    (∃ u ∈ uniqueVals [Val.num 3, Val.num 1, Val.num 2, Val.num 1, Val.num 3],
        eqRule (Val.num 3) u = true)
    ∧ (uniqueSortedMask [Val.num 3, Val.num 1, Val.num 2, Val.num 1,
        Val.num 3]).2.1.getD 0 false = true
    ∧ (uniqueSortedMask [Val.num 3, Val.num 1, Val.num 2, Val.num 1,
        Val.num 3]).2.1.getD 2 false
      = !(eqRule ((uniqueSortedMask [Val.num 3, Val.num 1, Val.num 2, Val.num 1,
            Val.num 3]).1.getD 2 Val.nan)
          ((uniqueSortedMask [Val.num 3, Val.num 1, Val.num 2, Val.num 1,
            Val.num 3]).1.getD (2 - 1) Val.nan)) :=
  ⟨(C1_unique_nodup_cover [Val.num 3, Val.num 1, Val.num 2, Val.num 1,
      Val.num 3]).2.1 (Val.num 3) (by decide),
   (C1_unique_nodup_cover [Val.num 3, Val.num 1, Val.num 2, Val.num 1,
      Val.num 3]).2.2.1 (by decide),
   (C1_unique_nodup_cover [Val.num 3, Val.num 1, Val.num 2, Val.num 1,
      Val.num 3]).2.2.2 2 (by decide) (by decide)⟩

/-- C2: with `return_counts` and no size argument, the counts of `unique`
sum to the length of the input, there is one count per unique value, and
each count is the multiplicity in the input of the corresponding unique
value (multiplicity under the NaN-equal-to-NaN rule). -/
theorem C2_counts_multiplicity (x : List Val) :
    ((uniqueParts x none none).2.2.2.sum = x.length)
    ∧ ((uniqueParts x none none).2.2.2.length = (uniqueVals x).length)
    ∧ ∀ k, k < (uniqueVals x).length →
        (uniqueParts x none none).2.2.2.getD k 0
          = x.countP (fun e => eqRule e ((uniqueVals x).getD k Val.nan)) := by
  refine ⟨?_, ?_, ?_⟩
  · rw [uniqueCounts_eq, sum_runsRLE_snd, length_sortedArr]
  · rw [uniqueCounts_eq, uniqueVals_eq, List.length_map, List.length_map]
  · intro k hk
    rw [uniqueCounts_eq, countP_eqRule_uniqueVals x k hk]

/-- C2 witness at the concrete input `[3, 1, 2, 1, 3]`. -/
theorem C2_witness :
    (uniqueParts [Val.num 3, Val.num 1, Val.num 2, Val.num 1, Val.num 3]
        none none).2.2.2.getD 0 0
      = ([Val.num 3, Val.num 1, Val.num 2, Val.num 1, Val.num 3]).countP
          (fun e => eqRule e ((uniqueVals [Val.num 3, Val.num 1, Val.num 2,
            Val.num 1, Val.num 3]).getD 0 Val.nan)) :=
  (C2_counts_multiplicity [Val.num 3, Val.num 1, Val.num 2, Val.num 1,
    Val.num 3]).2.2 0 (by decide)

/-- C3: with `return_inverse` and no size argument, indexing the unique
values by the inverse index reproduces the input elementwise, and the
inverse index at each original position equals the rank (cumulative count
of true mask entries up to and including its sorted position, minus one). -/
theorem C3_inverse_roundtrip (x : List Val) (i : Nat) (hi : i < x.length) :
    (uniqueVals x).getD ((uniqueParts x none none).2.2.1.getD i 0) Val.nan
      = x.getD i Val.nan
    ∧ ∀ j, j < x.length →
        (uniqueParts x none none).2.2.1.getD ((uniqueSortedMask x).2.2.getD j 0) 0
          = countTrue ((uniqueSortedMask x).2.1.take (j + 1)) - 1 := by
  have hx : x ≠ [] := by
    intro h
    rw [h] at hi
    simp at hi
  have hlenaux : (gather x (sortPerm x)).length = x.length := length_sortedArr x
  have hmasklen : (maskOf (gather x (sortPerm x))).length = x.length := by
    rw [length_maskOf, hlenaux]
  have hpermlen : (sortPerm x).length = x.length := length_sortPerm x
  have hnodup : (sortPerm x).Nodup :=
    (sortPerm_perm x).nodup_iff.mpr (List.nodup_range _)
  have hbound : ∀ q ∈ sortPerm x,
      q < (List.replicate (maskOf (gather x (sortPerm x))).length (0 : Nat)).length := by
    intro q hq
    rw [List.length_replicate, hmasklen]
    exact mem_sortPerm_lt x hq
  have hvals : ∀ j, j < x.length →
      (uniqueParts x none none).2.2.1.getD ((sortPerm x).getD j 0) 0
        = countTrue ((maskOf (gather x (sortPerm x))).take (j + 1)) - 1 := by
    intro j hj
    rw [uniqueInv_eq x hx,
      scatterSet_getD (sortPerm x) _ _ j hnodup hbound (by omega) ?_]
    · exact imask_getD _ j (by omega)
    · rw [List.length_map, length_cumsumFrom]
      omega
  refine ⟨?_, hvals⟩
  have hmem : i ∈ sortPerm x :=
    (sortPerm_perm x).mem_iff.mpr (List.mem_range.mpr (by omega))
  obtain ⟨j, hjlt, hji⟩ := List.getElem_of_mem hmem
  have hjx : j < x.length := by omega
  have hpj : (sortPerm x).getD j 0 = i := by
    rw [List.getD_eq_getElem _ _ hjlt, hji]
  have hauxj : (gather x (sortPerm x)).getD j Val.nan = x.getD i Val.nan := by
    have hj' : j < (gather x (sortPerm x)).length := by omega
    rw [List.getD_eq_getElem _ _ hj']
    show ((sortPerm x).map (keyAt x))[j] = _
    rw [List.getElem_map, hji]
    rfl
  rw [← hpj] at hauxj
  rw [← hpj, hvals j hjx, ← hauxj, uniqueVals_eq]
  exact rank_maskOf (gather x (sortPerm x)) Val.nan j (by omega)

/-- C3 witness at the concrete input `[3, 1, 2, 1, 3]`, position 0. -/
theorem C3_witness :
    (uniqueVals [Val.num 3, Val.num 1, Val.num 2, Val.num 1, Val.num 3]).getD
        ((uniqueParts [Val.num 3, Val.num 1, Val.num 2, Val.num 1, Val.num 3]
          none none).2.2.1.getD 0 0) Val.nan
      = ([Val.num 3, Val.num 1, Val.num 2, Val.num 1, Val.num 3]).getD 0 Val.nan
    ∧ (uniqueParts [Val.num 3, Val.num 1, Val.num 2, Val.num 1, Val.num 3]
          none none).2.2.1.getD
        ((uniqueSortedMask [Val.num 3, Val.num 1, Val.num 2, Val.num 1,
          Val.num 3]).2.2.getD 1 0) 0
      = countTrue ((uniqueSortedMask [Val.num 3, Val.num 1, Val.num 2, Val.num 1,
          Val.num 3]).2.1.take (1 + 1)) - 1 :=
  ⟨(C3_inverse_roundtrip [Val.num 3, Val.num 1, Val.num 2, Val.num 1, Val.num 3]
      0 (by decide)).1,
   (C3_inverse_roundtrip [Val.num 3, Val.num 1, Val.num 2, Val.num 1, Val.num 3]
      0 (by decide)).2 1 (by decide)⟩

/-- C4 (the code at the failing input): `setdiff1d([nan, nan], [0],
size=2)` returns `[nan, nan]`, reporting the internal deduplication
padding slot as a valid survivor, instead of `[nan, 0]` (the single
distinct surviving element followed by the default fill value zero). -/
theorem C4_setdiff_nan_padding_eval :
    setdiff1d [Val.nan, Val.nan] [Val.num 0] false (some 2) none
      = [Val.nan, Val.nan] := by
  decide

/-- C5: `in1d` returns, per element of the query array, whether it equals
(under elementwise `==`) any element of the reference array; with
`invert` the entry is the pointwise negation, true exactly when the
element equals none. -/
theorem C5_in1d_membership (a b : List Val) (i : Nat) (hi : i < a.length) :
    ((in1d a b false).getD i false = true
      ↔ ∃ y ∈ b, veq (a.getD i Val.nan) y = true)
    ∧ (in1d a b true).getD i false = !((in1d a b false).getD i false) := by
  have hlen1 : i < (in1d a b false).length := by simpa [in1d] using hi
  have hlen2 : i < (in1d a b true).length := by simpa [in1d] using hi
  constructor
  · rw [List.getD_eq_getElem _ _ hlen1]
    show (a.map fun x => b.any fun y => veq x y)[i] = true ↔ _
    rw [List.getElem_map, List.getD_eq_getElem _ _ hi]
    exact List.any_eq_true
  · rw [List.getD_eq_getElem _ _ hlen2, List.getD_eq_getElem _ _ hlen1]
    show (a.map fun x => b.all fun y => !(veq x y))[i]
      = !(a.map fun x => b.any fun y => veq x y)[i]
    rw [List.getElem_map, List.getElem_map]
    exact all_not_eq_not_any _ _

/-- C5 witness: `is_member([1, 5], [1, 2, 3])` at position 0. -/
theorem C5_witness :
    ((in1d [Val.num 1, Val.num 5] [Val.num 1, Val.num 2, Val.num 3]
        false).getD 0 false = true
      ↔ ∃ y ∈ [Val.num 1, Val.num 2, Val.num 3],
          veq (([Val.num 1, Val.num 5]).getD 0 Val.nan) y = true)
    ∧ (in1d [Val.num 1, Val.num 5] [Val.num 1, Val.num 2, Val.num 3]
        true).getD 0 false
      = !((in1d [Val.num 1, Val.num 5] [Val.num 1, Val.num 2, Val.num 3]
          false).getD 0 false) :=
  C5_in1d_membership [Val.num 1, Val.num 5] [Val.num 1, Val.num 2, Val.num 3]
    0 (by decide)

/-- C6: for an input that is empty along the working axis and a size
`s > 0`, `unique` raises `InvalidArgument` exactly when no fill value was
supplied; with a fill value it returns an array of length `s` all of whose
entries equal the fill value. -/
theorem C6_empty_unique (s : Nat) (hs : 0 < s) :
    (∀ fill : Option Val, (∃ e, jnpUnique [] (some s) fill = .error e) ↔ fill = none)
    ∧ ∀ fv : Val, jnpUnique [] (some s) (some fv)
        = .ok (List.replicate s fv, [], [], []) := by
  constructor
  · intro fill
    cases fill with
    | none =>
      have hr : uniqueRaises [] (some s) none = true := by
        simp [uniqueRaises]
        omega
      unfold jnpUnique
      rw [if_pos hr]
      simp
    | some fv =>
      have hr : ¬ uniqueRaises [] (some s) (some fv) = true := by
        simp [uniqueRaises]
      unfold jnpUnique
      rw [if_neg hr]
      simp
  · intro fv
    have hr : ¬ uniqueRaises [] (some s) (some fv) = true := by
      simp [uniqueRaises]
    unfold jnpUnique
    rw [if_neg hr]
    rfl

/-- C6 witness: `unique([], size=2, fill_value=0) == [0, 0]`, and the
error case at size 2. -/
theorem C6_witness :
    ((∃ e, jnpUnique [] (some 2) none = .error e) ↔ (none : Option Val) = none)
    ∧ jnpUnique [] (some 2) (some (Val.num 0))
        = .ok (List.replicate 2 (Val.num 0), [], [], []) :=
  ⟨(C6_empty_unique 2 (by decide)).1 none,
   (C6_empty_unique 2 (by decide)).2 (Val.num 0)⟩

/-- C7 counterexample: a one-dimensional empty array is empty along the
working axis, yet the ordering primitive produces a length-0 (not
length-1) permutation and a length-0 (not length-1) mask. -/
theorem C7_counterexample :
    ¬ ((uniqueSortedMaskND 1 []).2.2.length = 1
        ∧ (uniqueSortedMaskND 1 []).2.1 = [false]) := by
  decide

/-- C7 amended: the length-1 placeholder permutation and the length-1
false mask occur exactly when the product of the non-axis dimensions is
zero; an array that is empty along the working axis with a nonzero
non-axis product instead yields a length-0 permutation and mask. -/
theorem C7_degenerate_shapes (rowLen : Nat) (rows : List (List Val)) :
    (rowLen = 0 → (uniqueSortedMaskND rowLen rows).2.2 = [0]
        ∧ (uniqueSortedMaskND rowLen rows).2.1 = [false])
    ∧ (rows = [] → rowLen ≠ 0 → (uniqueSortedMaskND rowLen rows).2.2 = []
        ∧ (uniqueSortedMaskND rowLen rows).2.1 = []) := by
  constructor
  · intro h
    subst h
    simp [uniqueSortedMaskND]
  · intro h hr
    subst h
    simp [uniqueSortedMaskND, hr, sortPermRows]

/-- C7 witness: the placeholder branch at shape `(2, 0)` and the
working-axis-empty branch at shape `(0,)`. -/
theorem C7_witness :
    ((uniqueSortedMaskND 0 [[], []]).2.2 = [0]
      ∧ (uniqueSortedMaskND 0 [[], []]).2.1 = [false])
    ∧ ((uniqueSortedMaskND 1 []).2.2 = []
      ∧ (uniqueSortedMaskND 1 []).2.1 = []) :=
  ⟨(C7_degenerate_shapes 0 [[], []]).1 rfl,
   (C7_degenerate_shapes 1 []).2 rfl (by decide)⟩

/-- C8: intersection is symmetric: `intersect(a, b)` and `intersect(b, a)`
are identical arrays. -/
theorem C8_intersect_comm (a b : List Val) : intersect1d a b = intersect1d b a := by
  simp only [intersect1d]
  rw [vleSort_append_comm]

/-- C9: `unique` with no size argument is idempotent. -/
theorem C9_unique_idempotent (x : List Val) :
    uniqueVals (uniqueVals x) = uniqueVals x := by
  have hchain := uniqueVals_chain x
  have hsorted : List.Sorted (permLe (uniqueVals x))
      (List.range (uniqueVals x).length) := by
    rw [List.Sorted, List.pairwise_iff_getElem]
    intro a b ha hb hab
    have hpw := List.chain'_iff_pairwise.mp hchain
    rw [List.pairwise_iff_getElem] at hpw
    have ha' : a < (uniqueVals x).length := by simpa using ha
    have hb' : b < (uniqueVals x).length := by simpa using hb
    rw [List.getElem_range, List.getElem_range]
    refine Or.inl ?_
    show vltP (keyAt (uniqueVals x) a) (keyAt (uniqueVals x) b)
    show vltP ((uniqueVals x).getD a Val.nan) ((uniqueVals x).getD b Val.nan)
    rw [List.getD_eq_getElem _ _ ha', List.getD_eq_getElem _ _ hb']
    exact hpw a b ha' hb' hab
  have hperm : sortPerm (uniqueVals x) = List.range (uniqueVals x).length :=
    List.Sorted.insertionSort_eq hsorted
  have haux : gather (uniqueVals x) (sortPerm (uniqueVals x)) = uniqueVals x := by
    rw [hperm]
    exact gather_range _
  rw [uniqueVals_eq_bselect (uniqueVals x), haux, bselect_maskOf_chain _ hchain]

/-- C10: for a nonempty input with a size argument and no fill value,
`unique` raises no error, and every surplus output slot beyond the number
of distinct values holds the first unique value in sorted order, which is
a minimum of the input under the sort order. -/
theorem C10_oversize_fills_min (x : List Val) (hx : x ≠ []) (s : Nat) :
    jnpUnique x (some s) none = .ok (uniqueParts x (some s) none)
    ∧ (∀ i, countTrue (uniqueSortedMask x).2.1 ≤ i → i < s →
        (uniqueParts x (some s) none).1.getD i Val.nan
          = (uniqueVals x).getD 0 Val.nan)
    ∧ (∀ v ∈ x, vle ((uniqueVals x).getD 0 Val.nan) v = true) := by
  have hxlen : x.length ≠ 0 := fun h => hx (List.length_eq_zero.mp h)
  refine ⟨?_, ?_, ?_⟩
  · have hr : ¬ uniqueRaises x (some s) none = true := by
      simp [uniqueRaises, hxlen]
    unfold jnpUnique
    rw [if_neg hr]
  · intro i hki his
    have hki' : countTrue (maskOf (gather x (sortPerm x))) ≤ i := hki
    rw [uniqueValsSize_eq x hx s,
      gather_getD _ _ i (by rw [length_nonzeroSize]; exact his),
      nonzeroSize_getD_of_ge _ s i hki' his, uniqueVals_getD_zero]
    rfl
  · intro v hv
    rw [uniqueVals_getD_zero]
    have hvaux : v ∈ gather x (sortPerm x) := (sortedArr_perm x).mem_iff.mpr hv
    have hpw := sortedArr_pairwise x
    cases haux : gather x (sortPerm x) with
    | nil =>
      rw [haux] at hvaux
      simp at hvaux
    | cons a rest =>
      rw [haux] at hvaux hpw
      rw [List.getD_cons_zero]
      rcases List.mem_cons.mp hvaux with rfl | hvrest
      · exact vle_refl v
      · exact (List.pairwise_cons.mp hpw).1 v hvrest

/-- C10 witness at `x = [3, 1]`, `size = 4`: slot 3 holds the minimum 1. -/
theorem C10_witness :
    jnpUnique [Val.num 3, Val.num 1] (some 4) none
      = .ok (uniqueParts [Val.num 3, Val.num 1] (some 4) none)
    ∧ (uniqueParts [Val.num 3, Val.num 1] (some 4) none).1.getD 3 Val.nan
        = (uniqueVals [Val.num 3, Val.num 1]).getD 0 Val.nan
    ∧ vle ((uniqueVals [Val.num 3, Val.num 1]).getD 0 Val.nan) (Val.num 3) = true :=
  ⟨(C10_oversize_fills_min [Val.num 3, Val.num 1] (by decide) 4).1,
   (C10_oversize_fills_min [Val.num 3, Val.num 1] (by decide) 4).2.1 3
     (by decide) (by decide),
   (C10_oversize_fills_min [Val.num 3, Val.num 1] (by decide) 4).2.2
     (Val.num 3) (by decide)⟩

end JaxSetops
